import Mathlib

/-!
Verification of the stack-based bytecode virtual machine (`src/lib.rs`,
`VirtualMachine`).  The machine state is a 4096-byte memory (`stack`), a
stack pointer and a program counter, both signed 32-bit byte offsets.

Machine integers are modelled as `Nat` (for `u32`/`u8`/`usize` values) and
`Int` (for `i32` values), with explicit two's-complement reinterpretation
helpers (`toU32`, `toI32`, `wrap32`) at the points where the Rust code
performs `as` casts or wrapping arithmetic.  Fallible operations return
`Except String` carrying the exact error strings of the source; the
source's `panic!`-style aborts in `get_next_instruction` are modelled as
`Option.none`.
-/

namespace VmModel

/-- Reinterpretation of an integer's low 32 bits as an unsigned 32-bit
value, i.e. Rust's `as u32` on an `i32`. -/
def toU32 (n : Int) : Nat := (n % (2 : Int) ^ 32).toNat

/-- Reinterpretation of the low 32 bits of a natural number as a
two's-complement signed 32-bit value, i.e. Rust's `as i32` on a `u32`. -/
def toI32 (u : Nat) : Int :=
  if u % 2 ^ 32 < 2 ^ 31 then (u % 2 ^ 32 : Nat) else (u % 2 ^ 32 : Nat) - 2 ^ 32

/-- Wrapping (two's-complement) reduction of an integer into `i32` range. -/
def wrap32 (x : Int) : Int := toI32 (toU32 x)

/-- Rust `i32` left shift `x << k` (the shifted-out bits are discarded,
so the stored result is the wrapped product). -/
def shl_i32 (x : Int) (k : Nat) : Int := wrap32 (x * 2 ^ k)

/-- Rust's `as usize` on an `i32`-derived value: reinterpret modulo `2^64`
(the target is a 64-bit platform; a negative value wraps to a huge index). -/
def usizeCast (x : Int) : Nat := (x % (2 : Int) ^ 64).toNat

/-- Rust's `as i8` on a `u32`: keep the low byte, reinterpret as signed. -/
def toI8 (u : Nat) : Int :=
  if u % 256 < 128 then (u % 256 : Nat) else (u % 256 : Nat) - 256

/-- The unsigned 8-bit pattern of an `i8` value. -/
def toU8 (x : Int) : Nat := (x % (256 : Int)).toNat

/-- Rust `i32` bitwise AND, performed on the 32-bit two's-complement
patterns. -/
def and_i32 (a b : Int) : Int := toI32 (Nat.land (toU32 a) (toU32 b))

/-- Rust `i32` bitwise OR, performed on the 32-bit two's-complement
patterns. -/
def or_i32 (a b : Int) : Int := toI32 (Nat.lor (toU32 a) (toU32 b))

/-- Rust `i32` bitwise XOR, performed on the 32-bit two's-complement
patterns. -/
def xor_i32 (a b : Int) : Int := toI32 (Nat.xor (toU32 a) (toU32 b))

/-- Rust `i32` bitwise NOT (`!x`): complement of the 32-bit pattern. -/
def not_i32 (a : Int) : Int := toI32 (Nat.xor (toU32 a) (2 ^ 32 - 1))

/-- Rust `i8` bitwise AND, performed on the 8-bit two's-complement
patterns. -/
def and_i8 (a b : Int) : Int := toI8 (Nat.land (toU8 a) (toU8 b))

/-- The machine state: the 4096-byte unified memory (`stack` in the
source, a function from byte address to byte value), the stack pointer
and the program counter (both `i32` in the source).  The memory length is
fixed at 4096 and never changes, so it is kept implicit: every access in
the source is bounds-checked against `4096` (`self.stack.len()`). -/
structure VM where
  stack : Nat → Nat
  sp : Int
  pc : Int

/-- `VirtualMachine::get_next_instruction`: read the 4 bytes at
`PC..PC+4` little-endian into a `u32`.  The source `panic!`s (modelled as
`none`) when `pc >= stack.len() || pc + 4 >= stack.len()`. -/
def get_next_instruction (vm : VM) : Option Nat :=
  let pc := usizeCast vm.pc
  let bound := pc + 4
  if 4096 ≤ pc ∨ 4096 ≤ bound then none
  else
    some (((vm.stack pc ||| vm.stack (pc + 1) <<< 8) |||
      vm.stack (pc + 2) <<< 16) ||| vm.stack (pc + 3) <<< 24)

/-- `VirtualMachine::increment_program_counter`: the execution loop's
post-increment of the program counter by one instruction. -/
def increment_program_counter (vm : VM) : VM := { vm with pc := vm.pc + 4 }

/-- `VirtualMachine::peek_int_from_stack`: read a big-endian `u32` from
`memory[SP+off .. SP+off+4]`.  The address computation casts `SP + off`
`as usize`, so a negative address wraps to a huge index and is caught by
the `end > 4096` check. -/
def peek_int_from_stack (vm : VM) (stack_offset : Int) : Except String Nat :=
  let start := usizeCast (vm.sp + stack_offset)
  let stop := start + 4
  if 4096 < stop then .error "Failed to peek: stack is empty"
  else if 4096 < start then .error "Failed to peek: offset out of range"
  else
    .ok (((vm.stack start <<< 24 ||| vm.stack (start + 1) <<< 16) |||
      vm.stack (start + 2) <<< 8) ||| vm.stack (start + 3))

/-- `VirtualMachine::pop_int_from_stack`: fail if `SP + 4 > 4096`, abort
if `SP < 0` (a source `panic!`, modelled as a distinct error), else read
the big-endian `u32` at `SP..SP+4` and advance `SP` by 4. -/
def pop_int_from_stack (vm : VM) : Except String (Nat × VM) :=
  let new_stack_pointer := vm.sp + 4
  if 4096 < new_stack_pointer then .error "Failed to pop: stack is empty."
  else if vm.sp < 0 then .error "pop_int_from_stack: stack_pointer out of range"
  else
    let start := usizeCast vm.sp
    .ok ((((vm.stack start <<< 24 ||| vm.stack (start + 1) <<< 16) |||
      vm.stack (start + 2) <<< 8) ||| vm.stack (start + 3)),
      { vm with sp := new_stack_pointer })

/-- The write loop of `push_int_onto_stack`: store the `to_be_bytes` of
the `u32` bit pattern `u` (big-endian byte order) at `start..start+4`. -/
def store_be (stack : Nat → Nat) (start : Nat) (u : Nat) : Nat → Nat :=
  fun a =>
    if a = start then u / 2 ^ 24
    else if a = start + 1 then u / 2 ^ 16 % 256
    else if a = start + 2 then u / 2 ^ 8 % 256
    else if a = start + 3 then u % 256
    else stack a

/-- `VirtualMachine::push_int_onto_stack`: fail with `Out of memory.` if
`SP - 4 < 0`, abort if the write window leaves memory, else store the
argument's `to_be_bytes` (big-endian) at `SP-4..SP` and move `SP` down. -/
def push_int_onto_stack (vm : VM) (n : Int) : Except String VM :=
  let new_stack_pointer := vm.sp - 4
  if new_stack_pointer < 0 then .error "Out of memory."
  else
    let start := usizeCast new_stack_pointer
    if 4096 < start + 4 then .error "push_int_onto_stack: end out of range"
    else
      .ok { vm with
            stack := store_be vm.stack start (toU32 n),
            sp := new_stack_pointer }

/-- `VirtualMachine::call`, offset decode: extract the 26-bit field from
bits 27..2 and sign-extend it (bit 25 of the extracted field, i.e. bit 27
of the word, is the sign; the extension ORs in `!0x3FFFFFF`). -/
def call_offset (instruction : Nat) : Int :=
  let og_offset : Int := ((instruction >>> 2) &&& 0x3FFFFFF : Nat)
  if and_i32 og_offset ((1 <<< 25 : Nat) : Int) ≠ 0 then
    or_i32 og_offset (not_i32 0x3FFFFFF)
  else og_offset

/-- `VirtualMachine::call` continued: scale the decoded word offset by 4,
push the return address `PC + 4`, and set `PC ← PC + final_offset - 4`
(the `- 4` compensates the loop's post-increment). -/
def call (vm : VM) (instruction : Nat) : Except String VM := do
  let final_offset := shl_i32 (call_offset instruction) 2
  let red_addy := vm.pc + 4
  let vm1 ← push_int_onto_stack vm red_addy
  pure { vm1 with pc := vm1.pc + final_offset - 4 }

/-- The encoding loop of `VirtualMachine::stinput`: walk the
trimmed-and-truncated input bytes with a 3-byte accumulator `cur` and a
`byte_index`, completing a chunk every third byte (`cur |= 1 << 24` when
another byte follows, i.e. `i + 1 < len`) and pushing it onto the front
of the deque `d`; after the loop the source tests `byte_index != 3`,
which is always true since the index is reset inside the loop, so the
current partial accumulator — `0` when the byte count is a multiple of
3 — is also pushed to the front.  The returned list is the deque read
front-to-back, exactly the order in which `stinput` then pushes the
words (head pushed first, ending deepest; last element on top).  Every
word value stays below `2^25`, so `Nat` carries the `i32` values
exactly. -/
def stinGo : List Nat → Nat → Nat → Nat → Nat → List Nat → List Nat
  | [], _i, _len, cur, byte_index, d => if byte_index ≠ 3 then cur :: d else d
  | b :: rest, i, len, cur, byte_index, d =>
    let cur1 := cur ||| (b <<< (8 * byte_index))
    let bi1 := byte_index + 1
    if bi1 = 3 then
      stinGo rest (i + 1) len 0 0
        ((if i + 1 < len then cur1 ||| (1 <<< 24) else cur1) :: d)
    else stinGo rest (i + 1) len cur1 bi1 d

/-- `VirtualMachine::stinput`, encoding phase: the list of words the
instruction pushes, in push order, for a given input byte sequence. -/
def stinput_words (bytes : List Nat) : List Nat :=
  stinGo bytes 0 bytes.length 0 0 []

/-- Reference value for C9: the chunk word holding the *first* up to
three input bytes of the tagged-3-byte string encoding (continuation
flag set exactly when further bytes follow). -/
def first_chunk : List Nat → Nat
  | [] => 0
  | [b1] => b1
  | [b1, b2] => b1 ||| b2 <<< 8
  | b1 :: b2 :: b3 :: rest =>
    if rest = [] then (b1 ||| b2 <<< 8) ||| b3 <<< 16
    else ((b1 ||| b2 <<< 8) ||| b3 <<< 16) ||| 1 <<< 24

/-- Chunk-structured characterization of `stinGo`'s result (proved equal
to `stinput_words` below): the deque contents front-to-back, built three
input bytes at a time. -/
def stinWords : List Nat → List Nat
  | [] => [0]
  | [b1] => [b1]
  | [b1, b2] => [b1 ||| b2 <<< 8]
  | b1 :: b2 :: b3 :: rest =>
    stinWords rest ++
      [if rest = [] then (b1 ||| b2 <<< 8) ||| b3 <<< 16
       else ((b1 ||| b2 <<< 8) ||| b3 <<< 16) ||| 1 <<< 24]

/-- The body of `VirtualMachine::binary_arithmetic` after the two pops:
divide-by-zero check on the popped (pre-reduction) right operand, the
negative-shift-count reduction `right = (right as u32 % 32) as i32` for
sub-opcodes `>= 8`, then the operation dispatch.  Wrapping `i32`
arithmetic is modelled by `wrap32`; shift counts are masked modulo 32 as
the compiled shift instructions do. -/
def binary_op (which_operation : Nat) (left right0 : Int) : Except String Int :=
  if (which_operation = 3 ∨ which_operation = 4) ∧ right0 = 0 then
    .error "Attempt to divide by zero."
  else
    let right : Int :=
      if 8 ≤ which_operation ∧ right0 < 0 then ((toU32 right0 % 32 : Nat) : Int)
      else right0
    if which_operation = 0 then .ok (wrap32 (left + right))
    else if which_operation = 1 then .ok (wrap32 (left - right))
    else if which_operation = 2 then .ok (wrap32 (left * right))
    else if which_operation = 3 then .ok (Int.tdiv left right)
    else if which_operation = 4 then .ok (Int.tmod left right)
    else if which_operation = 5 then .ok (and_i32 left right)
    else if which_operation = 6 then .ok (or_i32 left right)
    else if which_operation = 7 then .ok (xor_i32 left right)
    else if which_operation = 8 then .ok (shl_i32 left (toU32 right % 32))
    else if which_operation = 9 then .ok (toI32 (toU32 left >>> (toU32 right % 32)))
    else if which_operation = 11 then .ok (Int.shiftRight left (toU32 right % 32))
    else .error "Binary arithmetic instruction contained bad identifier."

/-- `VirtualMachine::binary_arithmetic`: decode the sub-opcode from bits
27..24, pop `right` then `left` (reinterpreted as signed), compute, and
push the signed result. -/
def binary_arithmetic (vm : VM) (instruction : Nat) : Except String (Int × VM) := do
  let which_operation := (instruction &&& (0xf <<< 24)) >>> 24
  let (r, vm1) ← pop_int_from_stack vm
  let right := toI32 r
  let (l, vm2) ← pop_int_from_stack vm1
  let left := toI32 l
  let result ← binary_op which_operation left right
  let vm3 ← push_int_onto_stack vm2 result
  pure (result, vm3)

/-- `VirtualMachine::binary_if`, offset decode: the branch displacement
is `(instruction as i32) & 0x1FFFFFF`, sign-extended by ORing in
`!0x1FFFFFF` when bit 24 of the word is set. -/
def binary_if_offset (instruction : Nat) : Int :=
  let offset_mask : Int := (1 <<< 25 : Nat) - 1
  let offset := and_i32 (toI32 instruction) offset_mask
  if instruction &&& (1 <<< 24) ≠ 0 then or_i32 offset (not_i32 offset_mask)
  else offset

/-- `VirtualMachine::binary_if`, condition decode: bits 28..25 of the
word (`(instruction >> 25) & 0xF`; the mask is `(1 << 4) - 1`). -/
def binary_if_cond (instruction : Nat) : Nat :=
  let cond_mask := (1 <<< 4) - 1
  (instruction >>> 25) &&& cond_mask

/-- `VirtualMachine::binary_if`: peek `lhs` at `SP+4` and `rhs` at
`SP+0`, with each failed peek defaulted to `0` (the source uses
`unwrap_or(0)`), compare them — as the *u32* values returned by the
peeks; the source applies no signed cast here — and on success add
`offset - 4` to the program counter. -/
def binary_if (vm : VM) (instruction : Nat) : Except String VM :=
  let offset := binary_if_offset instruction
  let cond := binary_if_cond instruction
  let lhs : Nat := match peek_int_from_stack vm 4 with
    | .ok v => v
    | .error _ => 0
  let rhs : Nat := match peek_int_from_stack vm 0 with
    | .ok v => v
    | .error _ => 0
  let step : Bool → Except String VM := fun result =>
    .ok (if result then { vm with pc := vm.pc + offset - 4 } else vm)
  if cond = 0 then step (lhs == rhs)
  else if cond = 1 then step (lhs != rhs)
  else if cond = 2 then step (decide (lhs < rhs))
  else if cond = 3 then step (decide (rhs < lhs))
  else if cond = 4 then step (decide (lhs ≤ rhs))
  else if cond = 5 then step (decide (rhs ≤ lhs))
  else .error "Binary if: faulty instruction."

/-- `VirtualMachine::print`, offset decode: arithmetic-shift the word
(as `i32`) right by 2, mask to 26 bits, scale by 4, then — if bit 25 of
the *word* is set — OR in `!offset_mask` (`0xFC000000`).  Note the sign
test looks at bit 25 of the instruction word, and the extension mask is
the unscaled 26-bit mask applied after scaling. -/
def print_offset (instruction : Nat) : Int :=
  let offset_mask : Int := (1 <<< 26 : Nat) - 1
  let offset := and_i32 (Int.shiftRight (toI32 instruction) 2) offset_mask
  let offset := shl_i32 offset 2
  if instruction &&& (1 <<< 25) ≠ 0 then or_i32 offset (not_i32 offset_mask)
  else offset

/-- `VirtualMachine::print`, format decode: `instruction as i8 & 3`. -/
def print_fmt (instruction : Nat) : Int := and_i8 (toI8 instruction) 3

/-- `VirtualMachine::print`: peek the signed word at `SP + offset` and
emit it in the decoded format (0 decimal, 1 hex, 2 binary, 3 octal; the
text formatting itself is an external output sink, so the model returns
the value/format pair).  An unknown format code is the error
`print: faulty format code.`. -/
def print (vm : VM) (instruction : Nat) : Except String (Int × Int) :=
  match peek_int_from_stack vm (print_offset instruction) with
  | .error e => .error e
  | .ok v =>
    let pval := toI32 v
    let fmt := print_fmt instruction
    if fmt = 0 then .ok (pval, fmt)
    else if fmt = 1 then .ok (pval, fmt)
    else if fmt = 2 then .ok (pval, fmt)
    else if fmt = 3 then .ok (pval, fmt)
    else .error "print: faulty format code."

/-- Modelled from the spec (reference decode for C3, deliberately *not*
taken from the source): `off = sign_extend26(bits 27..2) << 2`, where the
26-bit field's own top bit — bit 27 of the word — is the sign bit. -/
def spec_print_offset (instruction : Nat) : Int :=
  let field := (instruction >>> 2) &&& ((1 <<< 26) - 1)
  let signed : Int :=
    if field &&& (1 <<< 25) ≠ 0 then (field : Int) - ((1 <<< 26 : Nat) : Int)
    else (field : Int)
  signed * 4

/-- `VirtualMachine::stprint`, offset decode: mask the word (as `i32`)
to its low 28 bits with `& !(0xf << 28)` and sign-extend by ORing
`0xf << 28` back in when bit 27 is set. -/
def stprint_offset (instruction : Nat) : Int :=
  let stack_offset := and_i32 (toI32 instruction) (not_i32 (shl_i32 15 28))
  if and_i32 stack_offset (shl_i32 1 27) ≠ 0 then
    or_i32 stack_offset (shl_i32 15 28)
  else stack_offset

/-- The print loop of `VirtualMachine::stprint`, walking memory from
`start` to 4096.  `last_char_set` starts at `-1` and begins counting at
the first zero byte, stopping the walk up to three bytes later; bytes 0
and 1 are never added to the deque `d`; every time `d` reaches three
entries they are emitted front-to-back (reversing the chunk) and the
deque cleared; the leftover deque is emitted at the end.  `out` is the
emitted-byte accumulator; the `fuel` argument is a structural bound,
instantiated as `4096 - start` so the loop always ends by `i = 4096`
first. -/
def stprintGo (stack : Nat → Nat) :
    Nat → Nat → Int → List Nat → List Nat → List Nat
  | 0, _, _, d, out => out ++ d
  | fuel + 1, i, last_char_set, d, out =>
    if 4096 ≤ i then out ++ d
    else
      let cur := stack i
      let last1 := if cur = 0 ∨ last_char_set ≠ -1 then last_char_set + 1
                   else last_char_set
      if 3 < last1 then out ++ d
      else if cur = 0 ∨ cur = 1 then stprintGo stack fuel (i + 1) last1 d out
      else
        let d1 := cur :: d
        if d1.length = 3 then stprintGo stack fuel (i + 1) last1 [] (out ++ d1)
        else stprintGo stack fuel (i + 1) last1 d1 out

/-- `VirtualMachine::stprint`: bounds-check `SP + offset`, then run the
print loop from there; the returned list is the byte sequence written to
the output stream, in order. -/
def stprint (vm : VM) (instruction : Nat) : Except String (List Nat) :=
  let stack_offset := stprint_offset instruction
  let start_address := vm.sp + stack_offset
  if 4096 ≤ start_address ∨ start_address < 0 then
    .error "stprint: Offset out of range."
  else
    let start_index := start_address.toNat
    .ok (stprintGo vm.stack (4096 - start_index) start_index (-1) [] [])

/-- `VirtualMachine::ret`: take the frame offset from bits 27..2 of the
word (`instruction & 0x0FFFFFFC`), free the frame (`SP += offset`), pop
the return address, and set `PC ← return_address - 4`. -/
def ret (vm : VM) (instruction : Nat) : Except String VM := do
  let offset : Int := toI32 (instruction &&& 0x0FFFFFFC)
  let vm1 := { vm with sp := vm.sp + offset }
  let (popped, vm2) ← pop_int_from_stack vm1
  let return_address := toI32 popped
  pure { vm2 with pc := return_address - 4 }

end VmModel

namespace VmClaimDefs

open VmModel

/-- Concrete machine used by witness theorems: all-zero memory, empty
stack, `PC = 0`. -/
def vmZero : VM := ⟨fun _ => 0, 4096, 0⟩

/-- Concrete machine for C2: the word at `SP+4` is `ff ff ff ff`
(signed `-1`) and the word at `SP+0` is `00 00 00 01` (`1`). -/
def vmC2 : VM :=
  ⟨fun a => if 4092 ≤ a then 255 else if a = 4091 then 1 else 0, 4088, 100⟩

/-- Concrete machine for C4: empty stack (`SP = 4096`), `PC = 100`. -/
def vmC4 : VM := ⟨fun _ => 0, 4096, 100⟩

/-- Concrete machine for C10: `SP = 4093`, bytes 4093..4095 hold
`02 01 41` — a payload containing the byte 0x01 between printable
bytes. -/
def vmC10 : VM :=
  ⟨fun a => if a = 4093 then 2 else if a = 4094 then 1 else
    if a = 4095 then 65 else 0, 4093, 0⟩

end VmClaimDefs

namespace VmModel

/-- Bytes shifted into disjoint positions assemble additively: the
big-endian reassembly `b0<<24 | b1<<16 | b2<<8 | b3` performed by
`peek_int_from_stack` and `pop_int_from_stack` equals the weighted sum. -/
theorem byte_assemble (b0 b1 b2 b3 : Nat) (h1 : b1 < 256) (h2 : b2 < 256)
    (h3 : b3 < 256) :
    ((b0 <<< 24 ||| b1 <<< 16) ||| b2 <<< 8) ||| b3 =
      b0 * 2 ^ 24 + b1 * 2 ^ 16 + b2 * 2 ^ 8 + b3 := by
  have s0 : b0 <<< 24 = b0 * 2 ^ 24 := Nat.shiftLeft_eq b0 24
  have s1 : b1 <<< 16 = b1 * 2 ^ 16 := Nat.shiftLeft_eq b1 16
  have s2 : b2 <<< 8 = b2 * 2 ^ 8 := Nat.shiftLeft_eq b2 8
  have e1 : b0 * 2 ^ 24 ||| b1 * 2 ^ 16 = b0 * 2 ^ 24 + b1 * 2 ^ 16 := by
    have h : b1 * 2 ^ 16 < 2 ^ 24 := by omega
    have := (Nat.mul_add_lt_is_or h b0).symm
    calc b0 * 2 ^ 24 ||| b1 * 2 ^ 16
        = 2 ^ 24 * b0 ||| b1 * 2 ^ 16 := by ring_nf
      _ = 2 ^ 24 * b0 + b1 * 2 ^ 16 := this
      _ = b0 * 2 ^ 24 + b1 * 2 ^ 16 := by ring
  have e2 : (b0 * 2 ^ 24 + b1 * 2 ^ 16) ||| b2 * 2 ^ 8 =
      b0 * 2 ^ 24 + b1 * 2 ^ 16 + b2 * 2 ^ 8 := by
    have h : b2 * 2 ^ 8 < 2 ^ 16 := by omega
    have := (Nat.mul_add_lt_is_or h (b0 * 2 ^ 8 + b1)).symm
    calc (b0 * 2 ^ 24 + b1 * 2 ^ 16) ||| b2 * 2 ^ 8
        = 2 ^ 16 * (b0 * 2 ^ 8 + b1) ||| b2 * 2 ^ 8 := by ring_nf
      _ = 2 ^ 16 * (b0 * 2 ^ 8 + b1) + b2 * 2 ^ 8 := this
      _ = b0 * 2 ^ 24 + b1 * 2 ^ 16 + b2 * 2 ^ 8 := by ring
  have e3 : (b0 * 2 ^ 24 + b1 * 2 ^ 16 + b2 * 2 ^ 8) ||| b3 =
      b0 * 2 ^ 24 + b1 * 2 ^ 16 + b2 * 2 ^ 8 + b3 := by
    have h : b3 < 2 ^ 8 := by omega
    have := (Nat.mul_add_lt_is_or h (b0 * 2 ^ 16 + b1 * 2 ^ 8 + b2)).symm
    calc (b0 * 2 ^ 24 + b1 * 2 ^ 16 + b2 * 2 ^ 8) ||| b3
        = 2 ^ 8 * (b0 * 2 ^ 16 + b1 * 2 ^ 8 + b2) ||| b3 := by ring_nf
      _ = 2 ^ 8 * (b0 * 2 ^ 16 + b1 * 2 ^ 8 + b2) + b3 := this
      _ = b0 * 2 ^ 24 + b1 * 2 ^ 16 + b2 * 2 ^ 8 + b3 := by ring
  rw [s0, s1, s2, e1, e2, e3]

/-- An in-range `as usize` cast is the plain `Int.toNat`. -/
theorem usizeCast_of_range {x : Int} (h0 : 0 ≤ x) (h : x < 2 ^ 64) :
    usizeCast x = x.toNat := by
  unfold usizeCast
  omega

/-- Round trip of the two's-complement reinterpretations for a value
already in `i32` range. -/
theorem toI32_toU32 {n : Int} (h1 : -(2 ^ 31) ≤ n) (h2 : n < 2 ^ 31) :
    toI32 (toU32 n) = n := by
  simp only [toI32, toU32]
  split <;> omega

/-- Reading back the four bytes written by `store_be`. -/
theorem store_be_reads (stack : Nat → Nat) (s u : Nat) :
    store_be stack s u s = u / 2 ^ 24 ∧
      store_be stack s u (s + 1) = u / 2 ^ 16 % 256 ∧
      store_be stack s u (s + 2) = u / 2 ^ 8 % 256 ∧
      store_be stack s u (s + 3) = u % 256 := by
  refine ⟨?_, ?_, ?_, ?_⟩
  · rw [store_be, if_pos rfl]
  · rw [store_be, if_neg (by omega), if_pos rfl]
  · rw [store_be, if_neg (by omega), if_neg (by omega), if_pos rfl]
  · rw [store_be, if_neg (by omega), if_neg (by omega), if_neg (by omega),
      if_pos rfl]

/-- `store_be` leaves every byte outside its four-byte window unchanged. -/
theorem store_be_frame (stack : Nat → Nat) (s u a : Nat)
    (ha : a ≠ s ∧ a ≠ s + 1 ∧ a ≠ s + 2 ∧ a ≠ s + 3) :
    store_be stack s u a = stack a := by
  rw [store_be, if_neg ha.1, if_neg ha.2.1, if_neg ha.2.2.1, if_neg ha.2.2.2]

/-- A push from a state with `4 ≤ SP ≤ 4096` succeeds and produces
exactly the `store_be`-updated memory with `SP` lowered by 4. -/
theorem push_ok (vm : VM) (n : Int) (h4 : 4 ≤ vm.sp) (hsp : vm.sp ≤ 4096) :
    push_int_onto_stack vm n =
      .ok { vm with stack := store_be vm.stack (vm.sp - 4).toNat (toU32 n),
                    sp := vm.sp - 4 } := by
  have hcast : usizeCast (vm.sp - 4) = (vm.sp - 4).toNat :=
    usizeCast_of_range (by omega) (by omega)
  simp only [push_int_onto_stack, hcast]
  rw [if_neg (by omega), if_neg (by omega)]

/-- A pop from a state whose four bytes at `SP..SP+4` hold the big-endian
encoding of `u < 2^32` returns `u` and raises `SP` by 4. -/
theorem pop_of_bytes (vm : VM) (u : Nat) (_hu : u < 2 ^ 32)
    (h0 : 0 ≤ vm.sp) (h : vm.sp + 4 ≤ 4096)
    (hb0 : vm.stack vm.sp.toNat = u / 2 ^ 24)
    (hb1 : vm.stack (vm.sp.toNat + 1) = u / 2 ^ 16 % 256)
    (hb2 : vm.stack (vm.sp.toNat + 2) = u / 2 ^ 8 % 256)
    (hb3 : vm.stack (vm.sp.toNat + 3) = u % 256) :
    pop_int_from_stack vm = .ok (u, { vm with sp := vm.sp + 4 }) := by
  have hcast : usizeCast vm.sp = vm.sp.toNat :=
    usizeCast_of_range (by omega) (by omega)
  have hval : (((u / 2 ^ 24) <<< 24 ||| (u / 2 ^ 16 % 256) <<< 16) |||
      (u / 2 ^ 8 % 256) <<< 8) ||| u % 256 = u := by
    rw [byte_assemble _ _ _ _ (by omega) (by omega) (by omega)]
    omega
  simp only [pop_int_from_stack, hcast, hb0, hb1, hb2, hb3]
  rw [if_neg (by omega), if_neg (by omega), hval]

/-- Running the `stinput` loop from a fresh accumulator at position `i`
with `len = i + |bytes|` produces the chunk list of `stinWords` in front
of the existing deque. -/
theorem stinGo_eq (bytes : List Nat) : ∀ (i : Nat) (d : List Nat),
    stinGo bytes i (i + bytes.length) 0 0 d = stinWords bytes ++ d := by
  induction bytes using stinWords.induct with
  | case1 =>
    intro i d
    simp [stinGo, stinWords]
  | case2 b1 =>
    intro i d
    simp [stinGo, stinWords]
  | case3 b1 b2 =>
    intro i d
    simp [stinGo, stinWords]
  | case4 b1 b2 b3 rest ih =>
    intro i d
    by_cases hr : rest = []
    · subst hr
      simp [stinGo, stinWords]
    · have hlen : 0 < rest.length := List.length_pos.mpr hr
      simp only [List.length_cons, stinGo]
      rw [if_neg (by decide), if_neg (by decide), if_pos (by decide),
        if_pos (by omega)]
      have hstep : i + 1 + 1 + 1 = i + 3 := by omega
      have hlen2 : i + (rest.length + 1 + 1 + 1) = (i + 3) + rest.length := by
        omega
      rw [hstep, hlen2, ih (i + 3)]
      simp [stinWords, hr]

/-- The loop always yields `⌊n/3⌋ + 1` words. -/
theorem stinWords_length (bytes : List Nat) :
    (stinWords bytes).length = bytes.length / 3 + 1 := by
  induction bytes using stinWords.induct <;>
    (simp [stinWords, *]; try omega)

/-- The word list is never empty. -/
theorem stinWords_ne_nil (bytes : List Nat) : stinWords bytes ≠ [] := by
  intro h
  have := stinWords_length bytes
  rw [h] at this
  simp at this

/-- When the byte count is a multiple of 3, the head of the list (the
word pushed first, ending deepest) is the extra all-zero word. -/
theorem stinWords_head_zero (bytes : List Nat) (h : bytes.length % 3 = 0) :
    (stinWords bytes).head? = some 0 := by
  induction bytes using stinWords.induct with
  | case1 => rfl
  | case2 b1 => simp at h
  | case3 b1 b2 => simp at h
  | case4 b1 b2 b3 rest ih =>
    have h' : rest.length % 3 = 0 := by
      simp only [List.length_cons] at h
      omega
    have hh := ih h'
    obtain ⟨x, xs, e⟩ := List.exists_cons_of_ne_nil (stinWords_ne_nil rest)
    simp only [stinWords]
    rw [e] at hh ⊢
    simpa using hh

/-- When the byte count is a positive multiple of 3, the second word of
the list (pushed right after the extra zero word, i.e. the chunk just
above it, holding the last three input bytes) has its continuation bit
clear: it is below `2^24`. -/
theorem stinWords_second_lt (bytes : List Nat)
    (hb : ∀ b ∈ bytes, b < 256) (h3 : bytes.length % 3 = 0)
    (h0 : bytes ≠ []) :
    ∃ w, (stinWords bytes)[1]? = some w ∧ w < 2 ^ 24 := by
  induction bytes using stinWords.induct with
  | case1 => exact absurd rfl h0
  | case2 b1 => simp at h3
  | case3 b1 b2 => simp at h3
  | case4 b1 b2 b3 rest ih =>
    have hb1 : b1 < 256 := hb b1 (by simp)
    have hb2 : b2 < 256 := hb b2 (by simp)
    have hb3 : b3 < 256 := hb b3 (by simp)
    by_cases hr : rest = []
    · subst hr
      refine ⟨(b1 ||| b2 <<< 8) ||| b3 <<< 16, by simp [stinWords], ?_⟩
      have e2 : b2 <<< 8 = b2 * 2 ^ 8 := Nat.shiftLeft_eq b2 8
      have e3 : b3 <<< 16 = b3 * 2 ^ 16 := Nat.shiftLeft_eq b3 16
      have g1 : b1 ||| b2 <<< 8 < 2 ^ 24 :=
        Nat.or_lt_two_pow (by omega) (by rw [e2]; omega)
      exact Nat.or_lt_two_pow g1 (by rw [e3]; omega)
    · have h' : rest.length % 3 = 0 := by
        simp only [List.length_cons] at h3
        omega
      have hlen : 3 ≤ rest.length := by
        have : 0 < rest.length := List.length_pos.mpr hr
        omega
      have h1 : 1 < (stinWords rest).length := by
        rw [stinWords_length]
        omega
      obtain ⟨w, hw, hwlt⟩ := ih (fun b hbm => hb b (by simp [hbm])) h' hr
      refine ⟨w, ?_, hwlt⟩
      simp only [stinWords]
      rw [List.getElem?_append_left h1]
      exact hw

/-- When the byte count is not a multiple of 3, the last word of the
list (the word pushed last, ending on top of the stack) is the chunk
holding the first input bytes. -/
theorem stinWords_getLast (bytes : List Nat) (h : bytes.length % 3 ≠ 0) :
    (stinWords bytes).getLast? = some (first_chunk bytes) := by
  rcases bytes with _ | ⟨b1, _ | ⟨b2, _ | ⟨b3, rest⟩⟩⟩
  · exact absurd rfl h
  · rfl
  · rfl
  · simp [stinWords, first_chunk]

/-- Invariant of the `stprint` loop: if neither the deque nor the output
accumulator holds a byte 0 or 1, the final output holds none either —
the loop skips every 0 and 1 byte before it can reach the deque. -/
theorem stprintGo_no_01 (stack : Nat → Nat) :
    ∀ (fuel i : Nat) (last : Int) (d out : List Nat),
      (∀ b ∈ d, b ≠ 0 ∧ b ≠ 1) → (∀ b ∈ out, b ≠ 0 ∧ b ≠ 1) →
      ∀ b ∈ stprintGo stack fuel i last d out, b ≠ 0 ∧ b ≠ 1 := by
  intro fuel
  induction fuel with
  | zero =>
    intro i last d out hd hout b hb
    simp only [stprintGo] at hb
    rcases List.mem_append.mp hb with h | h
    · exact hout b h
    · exact hd b h
  | succ fuel ih =>
    intro i last d out hd hout b hb
    simp only [stprintGo] at hb
    split at hb
    · rcases List.mem_append.mp hb with h | h
      · exact hout b h
      · exact hd b h
    · generalize (if stack i = 0 ∨ last ≠ -1 then last + 1 else last) = L at hb
      split at hb
      · rcases List.mem_append.mp hb with h | h
        · exact hout b h
        · exact hd b h
      · split at hb
        · exact ih _ _ _ _ hd hout b hb
        · next hcur =>
            push_neg at hcur
            split at hb
            · refine ih _ _ _ _ (by simp) ?_ b hb
              intro x hx
              rcases List.mem_append.mp hx with h | h
              · exact hout x h
              · rcases List.mem_cons.mp h with h' | h'
                · rw [h']
                  exact hcur
                · exact hd x h'
            · refine ih _ _ _ _ ?_ hout b hb
              intro x hx
              rcases List.mem_cons.mp hx with h' | h'
              · rw [h']
                exact hcur
              · exact hd x h'

end VmModel


namespace VmClaims

open VmModel

/-- C1: the source's fetch guard is `pc >= len || pc + 4 >= len`, so the
fetch at `PC = 4092` aborts even though its window `4092..4096` lies
inside memory: `0 ≤ 4092` and `4092 + 4 ≤ 4096` hold, yet
`get_next_instruction` returns `none` (the source `panic!`s). -/
theorem fetch_at_4092_aborts :
    (0 : Int) ≤ 4092 ∧ (4092 : Int) + 4 ≤ 4096 ∧
      get_next_instruction ⟨fun _ => 0, 4096, 4092⟩ = none := by
  refine ⟨by norm_num, by norm_num, ?_⟩
  decide

/-- C6: push/pop round trip.  For every signed 32-bit `n` and every state
with `SP ≥ 4` (and `SP ≤ 4096`, the standing invariant), pushing `n`
(big-endian at `SP-4`) and then popping returns a word that reinterprets
as signed to `n`, restores `SP`, and the pop leaves memory untouched;
every byte outside the four written ones is unchanged by the push. -/
theorem push_pop_roundtrip (vm : VM) (n : Int)
    (h4 : 4 ≤ vm.sp) (hsp : vm.sp ≤ 4096)
    (hlo : -(2 ^ 31) ≤ n) (hhi : n < 2 ^ 31) :
    ∃ vm1 u vm2,
      push_int_onto_stack vm n = .ok vm1 ∧
      pop_int_from_stack vm1 = .ok (u, vm2) ∧
      toI32 u = n ∧ vm2.sp = vm.sp ∧ vm2.stack = vm1.stack ∧
      ∀ a : Nat, ((a : Int) < vm.sp - 4 ∨ vm.sp ≤ (a : Int)) →
        vm1.stack a = vm.stack a := by
  have hu : toU32 n < 2 ^ 32 := by
    simp only [toU32]; omega
  have hst : ((vm.sp - 4).toNat : Int) = vm.sp - 4 := by omega
  set s := (vm.sp - 4).toNat with hs
  set vm1 : VM :=
    { vm with stack := store_be vm.stack s (toU32 n), sp := vm.sp - 4 } with hvm1
  have hreads := store_be_reads vm.stack s (toU32 n)
  have hpop : pop_int_from_stack vm1 = .ok (toU32 n, { vm1 with sp := vm1.sp + 4 }) := by
    refine pop_of_bytes vm1 (toU32 n) hu (by simp only [hvm1]; omega)
      (by simp only [hvm1]; omega) ?_ ?_ ?_ ?_ <;>
      simp only [hvm1] <;> rw [← hs] <;>
      [exact hreads.1; exact hreads.2.1; exact hreads.2.2.1; exact hreads.2.2.2]
  refine ⟨vm1, toU32 n, { vm1 with sp := vm1.sp + 4 },
    push_ok vm n h4 hsp, hpop, toI32_toU32 hlo hhi,
    by simp only [hvm1]; omega, rfl, ?_⟩
  intro a ha
  refine store_be_frame vm.stack s (toU32 n) a ⟨?_, ?_, ?_, ?_⟩ <;> omega

/-- Witness for C6 at a concrete state: `SP = 4096`, `n = -5`. -/
theorem push_pop_roundtrip_witness :
    ∃ vm1 u vm2,
      push_int_onto_stack VmClaimDefs.vmZero (-5) = .ok vm1 ∧
      pop_int_from_stack vm1 = .ok (u, vm2) ∧
      toI32 u = -5 ∧ vm2.sp = VmClaimDefs.vmZero.sp ∧ vm2.stack = vm1.stack ∧
      ∀ a : Nat, ((a : Int) < VmClaimDefs.vmZero.sp - 4 ∨
          VmClaimDefs.vmZero.sp ≤ (a : Int)) →
        vm1.stack a = VmClaimDefs.vmZero.stack a :=
  push_pop_roundtrip VmClaimDefs.vmZero (-5) (by norm_num [VmClaimDefs.vmZero])
    (by norm_num [VmClaimDefs.vmZero]) (by norm_num) (by norm_num)

/-- C5: call/ret round trip.  From any state where the call's push
succeeds (`4 ≤ SP ≤ 4096`) and with the program counter in fetch range,
executing `call` at address `PC_call` (any call word), letting the loop
post-increment run, and then executing `ret` with zero frame offset
leaves the machine — after ret's own post-increment — about to fetch at
`PC_call + 4`, with `SP` restored to its pre-call value.  Nothing
overwrites the pushed return-address word in between. -/
theorem call_ret_roundtrip (vm : VM) (instr_c instr_r : Nat)
    (h4 : 4 ≤ vm.sp) (hsp : vm.sp ≤ 4096)
    (hpc0 : 0 ≤ vm.pc) (hpc : vm.pc + 4 ≤ 4096)
    (hr : instr_r &&& 0x0FFFFFFC = 0) :
    ∃ vm1 vm2, call vm instr_c = .ok vm1 ∧
      ret (increment_program_counter vm1) instr_r = .ok vm2 ∧
      (increment_program_counter vm2).pc = vm.pc + 4 ∧ vm2.sp = vm.sp := by
  have hpush := push_ok vm (vm.pc + 4) h4 hsp
  have hu : toU32 (vm.pc + 4) < 2 ^ 32 := by simp only [toU32]; omega
  set u := toU32 (vm.pc + 4) with hu_def
  set s := (vm.sp - 4).toNat with hs_def
  set st := store_be vm.stack s u with hst_def
  set V1 : VM := ⟨st, vm.sp - 4, vm.pc + shl_i32 (call_offset instr_c) 2 - 4⟩ with hV1
  have hcall : call vm instr_c = .ok V1 := by
    simp only [call, hpush]
    rfl
  have h0 : toI32 (instr_r &&& 0x0FFFFFFC) = 0 := by rw [hr]; rfl
  set A : VM := ⟨st, vm.sp - 4, vm.pc + shl_i32 (call_offset instr_c) 2 - 4 + 4⟩ with hA
  have hreads := store_be_reads vm.stack s u
  have hpop : pop_int_from_stack A = .ok (u, { A with sp := A.sp + 4 }) := by
    refine pop_of_bytes A u hu (by simp only [hA]; omega) (by simp only [hA]; omega)
      ?_ ?_ ?_ ?_ <;> simp only [hA] <;> rw [← hs_def] <;>
      [exact hreads.1; exact hreads.2.1; exact hreads.2.2.1; exact hreads.2.2.2]
  have hret : ret (increment_program_counter V1) instr_r =
      .ok { A with sp := A.sp + 4, pc := toI32 u - 4 } := by
    simp only [ret, increment_program_counter, h0, add_zero, hV1]
    simp only [← hA, hpop]
    rfl
  refine ⟨V1, { A with sp := A.sp + 4, pc := toI32 u - 4 }, hcall, hret, ?_, ?_⟩
  · have : toI32 u = vm.pc + 4 := toI32_toU32 (by omega) (by omega)
    simp only [increment_program_counter, this]
    omega
  · simp only [hA]
    omega

/-- C2 (refuting): `binary_if` compares the peeked operands as raw `u32`
values, not as signed ones.  With `lhs = 0xFFFFFFFF` (signed `-1`) above
`rhs = 1` and condition code 2 (`lt`), the signed comparison `-1 < 1`
holds, yet the branch is not taken: the code evaluates
`0xFFFFFFFF < 1` unsigned, which is false, so `PC` stays `100`. -/
theorem binary_if_compares_unsigned :
    peek_int_from_stack VmClaimDefs.vmC2 4 = .ok 4294967295 ∧
    toI32 4294967295 = -1 ∧
    peek_int_from_stack VmClaimDefs.vmC2 0 = .ok 1 ∧
    binary_if_cond 0x84000008 = 2 ∧
    binary_if VmClaimDefs.vmC2 0x84000008 = .ok VmClaimDefs.vmC2 :=
  ⟨rfl, rfl, rfl, rfl, rfl⟩

/-- C4 counterexample: executing `binary_if` on an empty stack
(`SP = 4096`) does *not* fail — both peeks return the StackEmpty error
but `unwrap_or(0)` swallows it — and with condition code 0 (`eq`,
`0 = 0`) the branch *is* taken: `PC` moves from 100 to
`100 + 8 - 4 = 104`. -/
theorem binary_if_empty_stack_no_error :
    peek_int_from_stack VmClaimDefs.vmC4 4 = .error "Failed to peek: stack is empty" ∧
    peek_int_from_stack VmClaimDefs.vmC4 0 = .error "Failed to peek: stack is empty" ∧
    binary_if VmClaimDefs.vmC4 0x80000008 = .ok ⟨VmClaimDefs.vmC4.stack, 4096, 104⟩ :=
  ⟨rfl, rfl, rfl⟩

/-- C4 (amended): executing `binary_if` with an empty stack succeeds for
every valid condition code: both peeks fail with StackEmpty but are
defaulted to 0, the condition is evaluated with `lhs = rhs = 0`, so for
`eq`/`le`/`ge` the branch is taken (`PC ← PC + offset - 4`) and for
`ne`/`lt`/`gt` the state is unchanged; no error terminates the run. -/
theorem binary_if_empty_stack (vm : VM) (instruction : Nat)
    (hsp : vm.sp = 4096) (hc : binary_if_cond instruction ≤ 5) :
    binary_if vm instruction =
      .ok (if binary_if_cond instruction = 0 ∨ binary_if_cond instruction = 4 ∨
              binary_if_cond instruction = 5
           then { vm with pc := vm.pc + binary_if_offset instruction - 4 }
           else vm) := by
  have hp : ∀ off : Int, 0 ≤ off → off ≤ 4096 →
      peek_int_from_stack vm off = .error "Failed to peek: stack is empty" := by
    intro off h1 h2
    simp only [peek_int_from_stack, hsp]
    rw [if_pos (by unfold usizeCast; omega)]
  simp only [binary_if, hp 4 (by norm_num) (by norm_num),
    hp 0 (by norm_num) (by norm_num)]
  have h6 : binary_if_cond instruction = 0 ∨ binary_if_cond instruction = 1 ∨
      binary_if_cond instruction = 2 ∨ binary_if_cond instruction = 3 ∨
      binary_if_cond instruction = 4 ∨ binary_if_cond instruction = 5 := by omega
  rcases h6 with h | h | h | h | h | h <;> simp [h]

/-- Witness for C4's amended theorem at the concrete empty-stack machine
with the `lt` word `0x84000008` (condition code 2, untaken). -/
theorem binary_if_empty_stack_witness :
    binary_if VmClaimDefs.vmC4 0x84000008 =
      .ok (if binary_if_cond 0x84000008 = 0 ∨ binary_if_cond 0x84000008 = 4 ∨
              binary_if_cond 0x84000008 = 5
           then { VmClaimDefs.vmC4 with
                  pc := VmClaimDefs.vmC4.pc + binary_if_offset 0x84000008 - 4 }
           else VmClaimDefs.vmC4) :=
  binary_if_empty_stack VmClaimDefs.vmC4 0x84000008 rfl (by decide)

/-- C3 (refuting): `print` does not sign-extend its word offset by the
field's own sign bit (bit 27 of the word).  For the word `0xD8000000`
(opcode 13) the 26-bit field at bits 27..2 is `0x2000000`, whose top bit
is set, so the spec's decode gives the negative byte offset
`-134217728`; the code tests bit 25 of the word instead (clear here) and
produces `+134217728`. -/
theorem print_offset_wrong_sign_bit :
    (((0xD8000000 >>> 2) &&& ((1 <<< 26) - 1) : Nat) &&& (1 <<< 25) ≠ 0) ∧
    print_offset 0xD8000000 = 134217728 ∧
    spec_print_offset 0xD8000000 = -134217728 :=
  ⟨by decide, by decide, by decide⟩

/-- C8: `print` never fails with the format error: the decoded format
code `instruction as i8 & 3` always lies in `0..3`, so `print` fails
exactly when (and how) its peek fails. -/
theorem print_fails_only_via_peek (vm : VM) (instruction : Nat) (e : String) :
    print vm instruction = .error e ↔
      peek_int_from_stack vm (print_offset instruction) = .error e := by
  have h3 : toU8 3 = 3 := rfl
  have hm : Nat.land (toU8 (toI8 instruction)) (toU8 3) ≤ 3 := by
    have h := Nat.and_le_right (n := toU8 (toI8 instruction)) (m := toU8 3)
    rw [h3] at h
    exact h
  have hfm : print_fmt instruction =
      ((Nat.land (toU8 (toI8 instruction)) (toU8 3) : Nat) : Int) := by
    have hgen : ∀ m : Nat, m ≤ 3 → toI8 m = (m : Int) := by
      intro m hm'
      simp only [toI8]
      rw [if_pos (by omega), Nat.mod_eq_of_lt (by omega)]
    simp only [print_fmt, and_i8]
    exact hgen _ hm
  have hfmt : print_fmt instruction = 0 ∨ print_fmt instruction = 1 ∨
      print_fmt instruction = 2 ∨ print_fmt instruction = 3 := by
    rw [hfm]
    omega
  cases hpeek : peek_int_from_stack vm (print_offset instruction) with
  | error e' => simp [print, hpeek]
  | ok v =>
    rcases hfmt with h | h | h | h <;> simp [print, hpeek, h]

/-- C7: shift-negative-count law.  For any left operand `a` and any
negative shift count `b = -k` (`0 < k ≤ 2^31`, so `-k` is a valid
`i32`), the three shift sub-opcodes (8 = lsl, 9 = lsr, 11 = asr) reduce
the count by unsigned reinterpretation modulo 32 — so the result equals
the same operation at count `(-k) mod 32` (e.g. `-1` becomes 31) — while
a non-shift sub-opcode such as add uses the raw negative operand. -/
theorem shift_negative_count_mod32 (a k : Int) (hk1 : 0 < k) (hk2 : k ≤ 2 ^ 31) :
    binary_op 8 a (-k) = binary_op 8 a ((-k) % 32) ∧
    binary_op 9 a (-k) = binary_op 9 a ((-k) % 32) ∧
    binary_op 11 a (-k) = binary_op 11 a ((-k) % 32) ∧
    binary_op 0 a (-k) = .ok (wrap32 (a + -k)) := by
  have hzero : ∀ (op : Nat) (r : Int), op ≠ 3 → op ≠ 4 →
      ¬((op = 3 ∨ op = 4) ∧ r = 0) := by
    rintro op r h3 h4 ⟨h | h, -⟩ <;> contradiction
  have hredL : ∀ op : Nat, 8 ≤ op → (8 ≤ op ∧ (-k : Int) < 0) :=
    fun op h => ⟨h, by omega⟩
  have hredR : ∀ op : Nat, ¬(8 ≤ op ∧ (-k : Int) % 32 < 0) := by
    rintro op ⟨-, h⟩
    omega
  have hred0 : ¬((8 : Nat) ≤ 0 ∧ (-k : Int) < 0) := by
    rintro ⟨h, -⟩
    exact absurd h (by decide)
  have hcL : toU32 ((toU32 (-k) % 32 : Nat) : Int) % 32 = toU32 (-k) % 32 := by
    simp only [toU32]
    omega
  have hcR : toU32 ((-k) % 32) % 32 = toU32 (-k) % 32 := by
    simp only [toU32]
    omega
  refine ⟨?_, ?_, ?_, ?_⟩
  · have L : binary_op 8 a (-k) = .ok (shl_i32 a (toU32 (-k) % 32)) := by
      simp only [binary_op]
      rw [if_neg (hzero 8 (-k) (by decide) (by decide)),
        if_pos (hredL 8 (by decide)), hcL]
      norm_num
    have R : binary_op 8 a ((-k) % 32) = .ok (shl_i32 a (toU32 (-k) % 32)) := by
      simp only [binary_op]
      rw [if_neg (hzero 8 ((-k) % 32) (by decide) (by decide)),
        if_neg (hredR 8), hcR]
      norm_num
    rw [L, R]
  · have L : binary_op 9 a (-k) =
        .ok (toI32 (toU32 a >>> (toU32 (-k) % 32))) := by
      simp only [binary_op]
      rw [if_neg (hzero 9 (-k) (by decide) (by decide)),
        if_pos (hredL 9 (by decide)), hcL]
      norm_num
    have R : binary_op 9 a ((-k) % 32) =
        .ok (toI32 (toU32 a >>> (toU32 (-k) % 32))) := by
      simp only [binary_op]
      rw [if_neg (hzero 9 ((-k) % 32) (by decide) (by decide)),
        if_neg (hredR 9), hcR]
      norm_num
    rw [L, R]
  · have L : binary_op 11 a (-k) =
        .ok (Int.shiftRight a (toU32 (-k) % 32)) := by
      simp only [binary_op]
      rw [if_neg (hzero 11 (-k) (by decide) (by decide)),
        if_pos (hredL 11 (by decide)), hcL]
      norm_num
    have R : binary_op 11 a ((-k) % 32) =
        .ok (Int.shiftRight a (toU32 (-k) % 32)) := by
      simp only [binary_op]
      rw [if_neg (hzero 11 ((-k) % 32) (by decide) (by decide)),
        if_neg (hredR 11), hcR]
      norm_num
    rw [L, R]
  · simp only [binary_op]
    rw [if_neg (hzero 0 (-k) (by decide) (by decide)), if_neg hred0]
    norm_num

/-- Witness for C7 at `a = 5`, `k = 1`: shifting by `-1` behaves as
shifting by 31. -/
theorem shift_negative_count_mod32_witness :
    binary_op 8 5 (-1) = binary_op 8 5 ((-1) % 32) ∧
    binary_op 9 5 (-1) = binary_op 9 5 ((-1) % 32) ∧
    binary_op 11 5 (-1) = binary_op 11 5 ((-1) % 32) ∧
    binary_op 0 5 (-1) = .ok (wrap32 (5 + -1)) :=
  shift_negative_count_mod32 5 1 (by norm_num) (by norm_num)

/-- C9: word count of `stinput`.  With `n` the byte length of the
trimmed-and-truncated input line, the instruction pushes the words of
`stinput_words` in list order (head first, so the head ends deepest and
the last element on top).  The count is always `⌊n/3⌋ + 1`: when
`n % 3 = 0` (including `n = 0`) that is `⌈n/3⌉ + 1` — one extra all-zero
word is pushed first, deepest, sitting below the final chunk whose
continuation bit is already clear (`< 2^24`) — and when `n % 3 ≠ 0` it
is exactly `⌈n/3⌉ = ⌊n/3⌋ + 1`, with the chunk holding the first input
characters pushed last, i.e. on top. -/
theorem stinput_word_count (bytes : List Nat) (hb : ∀ b ∈ bytes, b < 256) :
    (stinput_words bytes).length = bytes.length / 3 + 1 ∧
    (bytes.length % 3 = 0 → (stinput_words bytes).head? = some 0 ∧
      (bytes ≠ [] →
        ∃ w, (stinput_words bytes)[1]? = some w ∧ w < 2 ^ 24)) ∧
    (bytes.length % 3 ≠ 0 →
      (stinput_words bytes).getLast? = some (first_chunk bytes)) := by
  have he : stinput_words bytes = stinWords bytes := by
    have h := stinGo_eq bytes 0 []
    rw [Nat.zero_add, List.append_nil] at h
    exact h
  rw [he]
  exact ⟨stinWords_length bytes,
    fun h3 => ⟨stinWords_head_zero bytes h3,
      fun h0 => stinWords_second_lt bytes hb h3 h0⟩,
    fun h => stinWords_getLast bytes h⟩

/-- Witness for C9 on the three-byte input `"ABC"` (`n = 3`, a multiple
of 3: two words, the deeper one the extra zero). -/
theorem stinput_word_count_witness :
    (stinput_words [65, 66, 67]).length = ([65, 66, 67] : List Nat).length / 3 + 1 ∧
    (([65, 66, 67] : List Nat).length % 3 = 0 →
      (stinput_words [65, 66, 67]).head? = some 0 ∧
      (([65, 66, 67] : List Nat) ≠ [] →
        ∃ w, (stinput_words [65, 66, 67])[1]? = some w ∧ w < 2 ^ 24)) ∧
    (([65, 66, 67] : List Nat).length % 3 ≠ 0 →
      (stinput_words [65, 66, 67]).getLast? = some (first_chunk [65, 66, 67])) :=
  stinput_word_count [65, 66, 67] (by decide)

/-- C10: `stprint` output never contains a byte 0x00 or 0x01.  Every
byte equal to 0 or 1 met while walking memory from `SP + off` is skipped
(`continue`) before it can enter the print deque, so a payload character
0x01 is silently dropped from the output. -/
theorem stprint_no_01 (vm : VM) (instruction : Nat) (out : List Nat)
    (h : stprint vm instruction = .ok out) :
    ∀ b ∈ out, b ≠ 0 ∧ b ≠ 1 := by
  simp only [stprint] at h
  split at h
  · exact absurd h (by simp)
  · have hout : out = stprintGo vm.stack
        (4096 - (vm.sp + stprint_offset instruction).toNat)
        (vm.sp + stprint_offset instruction).toNat (-1) [] [] := by
      exact (Except.ok.injEq _ _).mp h.symm
    rw [hout]
    exact stprintGo_no_01 vm.stack _ _ _ _ _ (by simp) (by simp)

/-- Witness for C10: on the concrete memory `02 01 41` the output is
`[65, 2]` — the 0x01 byte was dropped — and the theorem applied to the
output byte 65 yields that it is neither 0 nor 1. -/
theorem stprint_no_01_witness : (65 : Nat) ≠ 0 ∧ (65 : Nat) ≠ 1 :=
  stprint_no_01 VmClaimDefs.vmC10 0x40000000 [65, 2] rfl 65 (by simp)

/-- Witness for C5 at a concrete state: empty stack, `PC = 0`, call word
`0x50000004`, ret word `0x60000003` (frame-offset bits all zero). -/
theorem call_ret_roundtrip_witness :
    ∃ vm1 vm2, call VmClaimDefs.vmZero 0x50000004 = .ok vm1 ∧
      ret (increment_program_counter vm1) 0x60000003 = .ok vm2 ∧
      (increment_program_counter vm2).pc = VmClaimDefs.vmZero.pc + 4 ∧
      vm2.sp = VmClaimDefs.vmZero.sp :=
  call_ret_roundtrip VmClaimDefs.vmZero 0x50000004 0x60000003
    (by norm_num [VmClaimDefs.vmZero]) (by norm_num [VmClaimDefs.vmZero])
    (by norm_num [VmClaimDefs.vmZero]) (by norm_num [VmClaimDefs.vmZero])
    (by decide)

end VmClaims
